import Mathlib

/-!
Shallow embedding of `jps.py`, a differential-evolution style optimizer with a
simulated-annealing acceptance schedule, together with theorems about its
behaviour.

Modelling conventions.

Python floats are modelled as exact rationals; the places where IEEE special
values matter (NumPy division by zero, `np.mean` of an empty list) are
modelled by the explicit type `NpFloat` below.

The pseudorandom stream is modelled as an oracle: each call site receives the
value that the corresponding `random` or `numpy` call would have drawn, and
theorems quantify over these oracles.  An oracle field is supplied even when
the branch that would consume it is not taken, so the model does not track the
exact offset of each draw inside the shared stream; no theorem below depends
on that alignment.

CPython object identity (`is`), which the source uses in three comparisons,
is modelled by `pyIs` on a small universe of tagged objects; see the comments
at each use site.

The unbounded `while` loop of `jps` is modelled with explicit fuel; running
out of fuel is reported as a distinct outcome (`RunOut.running`), so
statements about termination and non-termination quantify over the fuel.
-/

namespace JPS

/-- One candidate solution: a Python tuple of floats, one coordinate per
dimension. -/
abbrev Member := List ℚ

/-- The entries of the user-supplied parameter dictionary that jps.py itself
reads.  Extra keys consumed only by the cost function are irrelevant here
because the cost function is modelled as an arbitrary pure function of the
member. -/
structure Params where
  pool_size : ℤ
  cost_target : ℚ
  max_evals : ℤ
  bounds : List (ℚ × ℚ)
  alpha : ℚ
  x : ℚ
  eval_frac : ℚ

/-- Python objects that jps.py compares with the identity operator `is`:
interned small CPython ints and NumPy int64 scalars. -/
inductive PyObj where
  | pyInt (n : ℤ)
  | npInt64 (n : ℤ)
deriving DecidableEq

/-- CPython identity (`is`) for the objects above, as it behaves at the two
integer comparisons of the source.  `random.choice([0, 1]) is 0` compares an
interned small int against the interned literal `0`, so identity agrees with
numeric equality there.  `np.random.choice([1, 0], p=[p, 1-p]) is 1` compares
a fresh NumPy int64 scalar object against the Python int literal `1`; a NumPy
scalar is never the same object as a Python int, so that comparison is false
for every drawn value. -/
def pyIs : PyObj → PyObj → Bool
  | .pyInt m, .pyInt n => m == n
  | _, _ => false

/-- NumPy double values as far as they matter here: a finite value, kept exact
as a rational, the two infinities, and NaN. -/
inductive NpFloat where
  | fin (q : ℚ)
  | inf
  | ninf
  | nan
deriving DecidableEq

/-- Division of a finite float by a NumPy float.  NumPy emits a runtime
warning but no exception on division by zero, producing a signed infinity for
a nonzero numerator and NaN for `0.0 / 0.0`; a finite value divided by an
infinity is zero. -/
def fdivF (a : ℚ) : NpFloat → NpFloat
  | .fin b =>
      if b = 0 then (if 0 < a then .inf else if a < 0 then .ninf else .nan)
      else .fin (a / b)
  | .inf => .fin 0
  | .ninf => .fin 0
  | .nan => .nan

/-- Squaring a NumPy float. -/
def npSq : NpFloat → NpFloat
  | .fin q => .fin (q ^ 2)
  | .nan => .nan
  | _ => .inf

/-- Adding the constant 1 to a NumPy float. -/
def npOnePlus : NpFloat → NpFloat
  | .fin q => .fin (1 + q)
  | .inf => .inf
  | .ninf => .ninf
  | .nan => .nan

/-- np.mean of a list of finite values: NumPy warns about the mean of an empty
slice and returns NaN; otherwise it is the arithmetic mean. -/
def npMean (l : List ℚ) : NpFloat :=
  if l.length = 0 then .nan else .fin (l.sum / l.length)

/-- The pseudorandom draws one call of mutate_dim may consume: the magnitude
draw `u(0, 1)`, the element drawn by `random.choice([0, 1])`, and the
clip-resample draw `u(0, 1)`. -/
structure DimRand where
  u1 : ℚ
  s : ℤ
  u2 : ℚ

/-- The draws consumed while processing one population slot: the per-dimension
mutation draws and the element sampled by np.random.choice in the acceptance
test. -/
structure SlotRand where
  dims : ℕ → DimRand
  acc : ℤ

/-- jps.py, mutate_dim.  The source guards the two resample branches with the
identity tests `dim is lo` and `dim is hi` on float objects; identity of float
objects implies numeric equality, and when `dim` equals the bound both the
guarded constant and the resample formula evaluate to that same bound, so the
value-level model may take the guarded branch on numeric equality without
changing any result. -/
def mutate_dim (dim hi lo : ℚ) (params : Params) (r : DimRand) : ℚ :=
  let v0 := params.x * (hi - lo) * r.u1
  let v := if pyIs (.pyInt r.s) (.pyInt 0) then v0 else -v0
  let dim_mutated := dim + v
  if dim_mutated < lo then (if dim = lo then lo else lo + r.u2 * (dim - lo))
  else if dim_mutated > hi then (if dim = hi then hi else hi - r.u2 * (hi - dim))
  else dim_mutated

/-- jps.py, mutate.  Note the argument order at the call site in the source:
`mutate_dim(member[i], params[bounds][i][0], params[bounds][i][1], params, u)`
passes `bounds[i][0]` (documented in the module header as the LOWER bound)
into the parameter named `hi`, and `bounds[i][1]` (the UPPER bound) into the
parameter named `lo`.  The model keeps that call exactly as written.  Indices
are in range in every modelled run, so the defaults of `getD` are never
consulted. -/
def mutate (member : Member) (params : Params) (r : ℕ → DimRand) : Member :=
  (List.range member.length).map fun i =>
    mutate_dim (member.getD i 0) (params.bounds.getD i (0, 0)).1
      (params.bounds.getD i (0, 0)).2 params (r i)

/-- random.uniform(a, b), as CPython computes it: `a + (b - a) * random()`,
with `t` the underlying `random()` draw in [0, 1]. -/
def uniform (a b t : ℚ) : ℚ := a + (b - a) * t

/-- The local helper gen_member inside gen_pool: one coordinate per bounds
pair, drawn by `u(lo, hi)`. -/
def gen_member (params : Params) (t : ℕ → ℚ) : Member :=
  (List.range params.bounds.length).map fun i =>
    uniform (params.bounds.getD i (0, 0)).1 (params.bounds.getD i (0, 0)).2 (t i)

/-- jps.py, gen_pool.  `int(params[pool_size] / 2)` truncates the float
quotient toward zero; composed with `range`, which is empty for nonpositive
arguments, it agrees with `(pool_size / 2).toNat` for every integer pool_size
under either integer-division convention.  `st j` supplies the `random()`
draws for seed member `j` and `mr j` the draws for its mutant; the index `i`
of `enumerate` in the mutant comprehension is unused in the source, and the
delta list pairs each seed with its mutant positionally, written here with
`zipWith` over the two equally long halves. -/
def gen_pool (cost : Member → ℚ) (params : Params) (st : ℕ → ℕ → ℚ)
    (mr : ℕ → ℕ → DimRand) : List Member × NpFloat :=
  let half := (params.pool_size / 2).toNat
  let rand_pool_half := (List.range half).map fun j => gen_member params (st j)
  let mutant_pool_half :=
    (List.range half).map fun j => mutate (gen_member params (st j)) params (mr j)
  (rand_pool_half ++ mutant_pool_half,
    npMean (List.zipWith (fun t' m => cost m - cost t') rand_pool_half mutant_pool_half))

/-- jps.py, prob: the warm-up phase returns `alpha ** evals`; the main phase
divides that by `1 + (d / davg) ** 2` with NumPy float semantics. -/
def prob (d : ℚ) (davg : NpFloat) (evals : ℕ) (params : Params) : NpFloat :=
  if (evals : ℚ) ≤ params.eval_frac * (params.max_evals : ℚ) then
    .fin (params.alpha ^ evals)
  else fdivF (params.alpha ^ evals) (npOnePlus (npSq (fdivF d davg)))

/-- The Python exceptions a modelled run can raise: the IndexError of
`sorted(...)[0]` on an empty pool and the ValueError of np.random.choice on an
invalid probability vector. -/
inductive PyErr where
  | indexError
  | valueError
deriving DecidableEq

/-- np.random.choice([1, 0], p=[p, 1-p]): NumPy validates the probability
vector and raises ValueError when it contains NaN or an entry outside [0, 1]
(the vector [p, 1-p] sums to one whenever p is finite); otherwise the sampled
element is returned, supplied here by the oracle value `v`. -/
def np_random_choice (p : NpFloat) (v : ℤ) : Except PyErr ℤ :=
  match p with
  | .fin q => if 0 ≤ q ∧ q ≤ 1 then .ok v else .error .valueError
  | _ => .error .valueError

/-- The replacement decision for one slot, after the best-solution
bookkeeping: greedy replacement on strict improvement, otherwise the annealed
acceptance test.  The acceptance test is the source line
`if np.random.choice([1, 0], p=[p, 1-p]) is 1:`, comparing the NumPy int64
scalar returned by choice against the Python literal 1 with `is`. -/
def slot_accept (cost : Member → ℚ) (params : Params) (davg : NpFloat) (evals : ℕ)
    (r : SlotRand) (i : ℕ) (pool : List Member) (next : Member) (next_cost : ℚ) :
    Except PyErr (List Member) :=
  let current := pool.getD i []
  let current_cost := cost current
  if next_cost < current_cost then .ok (pool.set i next)
  else
    let d := next_cost - current_cost
    let p := prob d davg evals params
    match np_random_choice p r.acc with
    | .error e => .error e
    | .ok v => if pyIs (.npInt64 v) (.pyInt 1) then .ok (pool.set i next) else .ok pool

/-- One pass over the listed population slots, the body of
`for i, current in enumerate(pool):`.  It returns the updated pool, best
member and best cost, or the exception that escaped.  The `break` on reaching
cost_target sits inside the `if next_cost < best_cost:` block, exactly as in
the source, so it fires only when a strictly improving candidate dips below
the target; the remaining slots are then skipped with the pool unchanged. -/
def slots_loop (cost : Member → ℚ) (params : Params) (davg : NpFloat) (evals : ℕ)
    (r : ℕ → SlotRand) :
    List ℕ → List Member → Member → ℚ → Except PyErr (List Member × Member × ℚ)
  | [], pool, best, best_cost => .ok (pool, best, best_cost)
  | i :: rest, pool, best, best_cost =>
    let next := mutate (pool.getD i []) params (r i).dims
    let next_cost := cost next
    let best' := if next_cost < best_cost then next else best
    let best_cost' := if next_cost < best_cost then next_cost else best_cost
    if next_cost < best_cost ∧ best_cost' < params.cost_target then
      .ok (pool, best', best_cost')
    else
      match slot_accept cost params davg evals (r i) i pool next next_cost with
      | .error e => .error e
      | .ok pool' => slots_loop cost params davg evals r rest pool' best' best_cost'

/-- The running state of the while loop of jps. -/
structure LoopState where
  pool : List Member
  best : Member
  best_cost : ℚ
  evals : ℕ
deriving DecidableEq

/-- One completed generation: a pass over every slot index of the pool,
followed by the single `evals += 1` that the source performs after the for
loop. -/
def gen_step (cost : Member → ℚ) (params : Params) (davg : NpFloat)
    (r : ℕ → SlotRand) (st : LoopState) : Except PyErr LoopState :=
  match slots_loop cost params davg st.evals r (List.range st.pool.length)
      st.pool st.best st.best_cost with
  | .error e => .error e
  | .ok (pool, best, best_cost) => .ok ⟨pool, best, best_cost, st.evals + 1⟩

/-- The observable outcome of running the while loop with a given amount of
fuel: a normal return, a propagated exception, or still running when the fuel
is exhausted. -/
inductive RunOut where
  | result (best : Member) (best_cost : ℚ)
  | raised (e : PyErr)
  | running
deriving DecidableEq

/-- The source loop
`while evals <= params[max_evals] or best_cost < params[cost_target]:`
with explicit fuel; the guard is checked before every generation, and the pair
(best, best_cost) is returned when it fails. -/
def jps_loop (cost : Member → ℚ) (params : Params) (davg : NpFloat)
    (rng : ℕ → ℕ → SlotRand) : ℕ → LoopState → RunOut
  | 0, _ => .running
  | fuel + 1, st =>
    if (st.evals : ℤ) ≤ params.max_evals ∨ st.best_cost < params.cost_target then
      match gen_step cost params davg (rng st.evals) st with
      | .error e => .raised e
      | .ok st' => jps_loop cost params davg rng fuel st'
    else .result st.best st.best_cost

/-- The first element of a stable sort by cost: the earliest member attaining
the minimum cost, or `none` on the empty list, where `sorted(...)[0]` raises
IndexError. -/
def min_by_cost : List (Member × ℚ) → Option (Member × ℚ)
  | [] => none
  | p :: rest =>
    match min_by_cost rest with
    | none => some p
    | some q => some (if q.2 < p.2 then q else p)

/-- The source line
`best, best_cost = sorted([(m, cost(m, params)) for m in pool], key=lambda tup: tup[1])[0]`. -/
def init_best (pool : List Member) (cost : Member → ℚ) : Option (Member × ℚ) :=
  min_by_cost (pool.map fun m => (m, cost m))

/-- jps.py, jps: pool generation, initial best selection, then the fuelled
while loop.  `st`, `mr` and `rng` are the pseudorandom oracles for the seed
draws, the bootstrap mutations and the per-generation slot draws; the
generation counter doubles as the index into `rng` because `evals` is
incremented exactly once per generation. -/
def jps (cost : Member → ℚ) (params : Params) (st : ℕ → ℕ → ℚ)
    (mr : ℕ → ℕ → DimRand) (rng : ℕ → ℕ → SlotRand) (fuel : ℕ) : RunOut :=
  let pd := gen_pool cost params st mr
  match init_best pd.1 cost with
  | none => .raised .indexError
  | some (best, best_cost) => jps_loop cost params pd.2 rng fuel ⟨pd.1, best, best_cost, 0⟩

/-- A member is within bounds: one coordinate per bounds pair, each inside its
inclusive interval. -/
def validMember (params : Params) (m : Member) : Prop :=
  m.length = params.bounds.length ∧
  ∀ i, i < m.length →
    (params.bounds.getD i (0, 0)).1 ≤ m.getD i 0 ∧
      m.getD i 0 ≤ (params.bounds.getD i (0, 0)).2

instance (params : Params) (m : Member) : Decidable (validMember params m) := by
  unfold validMember
  infer_instance

instance {ε α : Type _} [DecidableEq ε] [DecidableEq α] : DecidableEq (Except ε α) := fun a b =>
  match a, b with
  | .ok x, .ok y =>
      if h : x = y then .isTrue (by rw [h]) else .isFalse (fun hc => h (Except.ok.inj hc))
  | .error x, .error y =>
      if h : x = y then .isTrue (by rw [h]) else .isFalse (fun hc => h (Except.error.inj hc))
  | .ok _, .error _ => .isFalse (fun hc => Except.noConfusion hc)
  | .error _, .ok _ => .isFalse (fun hc => Except.noConfusion hc)

/-! Concrete configurations and oracles used in the theorems below. -/

/-- A cost function reading the first coordinate of a member. -/
def costHead : Member → ℚ := fun m => m.getD 0 0

/-- A constant cost function: every bootstrap delta is exactly zero under it. -/
def const5 : Member → ℚ := fun _ => 5

/-- A uniform-draw oracle returning one half for every call. -/
def halfDraw : ℕ → ℕ → ℚ := fun _ _ => 1/2

/-- Per-dimension draws: magnitude one half, the sign draw picks the element 0,
resample draw one half. -/
def halfDim : DimRand := ⟨1/2, 0, 1/2⟩

/-- A bootstrap-mutation oracle made of `halfDim` draws. -/
def mrHalf : ℕ → ℕ → DimRand := fun _ _ => halfDim

/-- Slot draws whose acceptance sample is the element 0. -/
def rngHalf : ℕ → ℕ → SlotRand := fun _ _ => ⟨fun _ => halfDim, 0⟩

/-- Slot draws whose acceptance sample is the element 1: the np.random.choice
call has drawn the value 1, the outcome that is supposed to accept the worse
candidate. -/
def rngOne : ℕ → SlotRand := fun _ => ⟨fun _ => halfDim, 1⟩

/-- Configuration for the non-termination run: positive budget, and a cost
target the cost function always stays below. -/
def params1 : Params := ⟨2, 5, 3, [(0, 1)], 999/1000, 1/5, 1/2⟩

/-- Configuration for the acceptance-step run: target low enough that the
improving-candidate break never fires. -/
def params2 : Params := ⟨2, -5, 3, [(0, 1)], 1/2, 1/5, 1⟩

/-- Configuration with the bounds pair (-10, 10) of the module header example. -/
def params3 : Params := ⟨2, 0, 1, [(-10, 10)], 1/2, 1/10, 1/2⟩

/-- Per-dimension draws for the mutation counterexample: magnitude draw one
half, sign draw 0, resample draw one quarter. -/
def r3 : ℕ → DimRand := fun _ => ⟨1/2, 0, 1/4⟩

/-- Configuration whose warm-up phase ends after the first generation
(eval_frac = 0), exposing the main-phase acceptance formula at evals = 1. -/
def params6 : Params := ⟨2, -1, 1, [(0, 1)], 1/2, 1/5, 0⟩

/-- Configuration violating the bounds contract: lo = 2 > 1 = hi. -/
def params7 : Params := ⟨2, 7, 1, [(2, 1)], 1/2, 1/5, 1⟩

/-- Configuration with an odd pool size. -/
def params8 : Params := ⟨3, 0, 1, [(0, 1)], 1/2, 1/5, 1/2⟩

/-- Configuration with pool_size = 1, permitted by the documented contract
pool_size > 0. -/
def params10 : Params := ⟨1, 0, 1, [(0, 1)], 1/2, 1/5, 1/2⟩

/-! Theorems. -/

/-- C3: the claim says mutating an in-bounds value returns the candidate
`value + signed v` unchanged whenever that candidate lies inside [lo, hi].
On the code this fails: `mutate` passes the lower bound into the parameter
named `hi` and the upper bound into the parameter named `lo`, so from value 0
with bounds (-10, 10), mutation_scale 1/10, magnitude draw 1/2 and a negative
signed velocity the candidate is -1, which lies inside [-10, 10], yet the
code resamples against the upper bound and returns 10 + (1/4)·(0 - 10) = 15/2.
The conjuncts record that the candidate -1 is in bounds and that the returned
coordinate is not that candidate. -/
theorem C3_swapped_bounds_eval :
    mutate [(0 : ℚ)] params3 r3 = [15/2]
    ∧ (-10 : ℚ) ≤ -1 ∧ (-1 : ℚ) ≤ 10 ∧ ((15 : ℚ)/2) ≠ -1 :=
  of_decide_eq_true (by with_unfolding_all rfl)

/-- C6: the claim says a degenerate calibration (davg = 0) is met by
substituting a small positive epsilon, and the run still completes.  On the
code there is no such substitution: with the constant cost function every
bootstrap delta is zero, so davg = 0, and at the first main-phase generation
the acceptance formula computes (d/davg)² = (0/0)², a NaN under NumPy
division; np.random.choice then raises ValueError and the run aborts instead
of completing. -/
theorem C6_davg_zero_raises :
    (gen_pool const5 params6 halfDraw mrHalf).2 = .fin 0
    ∧ jps const5 params6 halfDraw mrHalf rngHalf 3 = .raised .valueError :=
  of_decide_eq_true (by with_unfolding_all rfl)

/-- C8 counterexample: with pool_size = 3 the population built by gen_pool has
2 members, not pool_size = 3 — the odd member is silently dropped, with no
rejection and no documented rounding. -/
theorem C8_odd_pool_counterexample :
    params8.pool_size = 3
    ∧ (gen_pool costHead params8 halfDraw mrHalf).1.length = 2
    ∧ (2 : ℤ) ≠ 3 :=
  of_decide_eq_true (by with_unfolding_all rfl)

/-- C8 amended: the population built by gen_pool always has
2 · ⌊pool_size / 2⌋ members: exactly pool_size when pool_size is even and
nonnegative, and silently pool_size - 1 when pool_size is odd. -/
theorem C8_pool_rounding (cost : Member → ℚ) (params : Params)
    (st : ℕ → ℕ → ℚ) (mr : ℕ → ℕ → DimRand) :
    (gen_pool cost params st mr).1.length = 2 * (params.pool_size / 2).toNat := by
  simp [gen_pool, two_mul]

/-- C2: the annealed acceptance step never replaces a slot with a worse
candidate, whatever the random draws.  Whenever the mutated candidate for slot
i does not strictly improve on the current member, processing that slot leaves
the pool unchanged: the test `np.random.choice([1, 0], p=[p, 1-p]) is 1`
compares a NumPy int64 scalar with the Python literal 1 by object identity
and is false for every drawn value, including a draw of 1. -/
theorem C2_worse_never_accepted (cost : Member → ℚ) (params : Params)
    (davg : NpFloat) (evals : ℕ) (r : ℕ → SlotRand) (i : ℕ) (pool : List Member)
    (best : Member) (best_cost : ℚ) (out : List Member × Member × ℚ)
    (hworse : ¬ cost (mutate (pool.getD i []) params ((r i).dims)) < cost (pool.getD i []))
    (hok : slots_loop cost params davg evals r [i] pool best best_cost = .ok out) :
    out.1 = pool := by
  have hpy : ∀ v : ℤ, pyIs (.npInt64 v) (.pyInt 1) = false := fun _ => rfl
  by_cases hb : cost (mutate (pool.getD i []) params ((r i).dims)) < best_cost
  · by_cases ht : cost (mutate (pool.getD i []) params ((r i).dims)) < params.cost_target
    · simp only [slots_loop, if_pos hb, if_pos (And.intro hb ht)] at hok
      have h2 := Except.ok.inj hok
      subst h2
      rfl
    · simp only [slots_loop, slot_accept, if_pos hb, if_neg hworse, hpy,
        if_neg (fun hc : _ ∧ _ => ht hc.2)] at hok
      cases hch : np_random_choice
          (prob (cost (mutate (pool.getD i []) params ((r i).dims)) - cost (pool.getD i []))
            davg evals params) ((r i).acc) with
      | error e =>
        rw [hch] at hok
        simp at hok
      | ok v =>
        rw [hch] at hok
        simp only [Bool.false_eq_true, if_false, slots_loop] at hok
        have h2 := Except.ok.inj hok
        subst h2
        rfl
  · simp only [slots_loop, slot_accept, if_neg hb, if_neg hworse, hpy,
      if_neg (fun hc : _ ∧ _ => hb hc.1)] at hok
    cases hch : np_random_choice
        (prob (cost (mutate (pool.getD i []) params ((r i).dims)) - cost (pool.getD i []))
          davg evals params) ((r i).acc) with
    | error e =>
      rw [hch] at hok
      simp at hok
    | ok v =>
      rw [hch] at hok
      simp only [Bool.false_eq_true, if_false, slots_loop] at hok
      have h2 := Except.ok.inj hok
      subst h2
      rfl

/-- C2 witness: a concrete slot whose candidate is strictly worse (cost 1/2
against 0) and whose acceptance draw is the element 1; the pool is still
unchanged. -/
theorem C2_witness :
    (rngOne 0).acc = 1
    ∧ ¬ costHead (mutate ([[(0 : ℚ)]].getD 0 []) params2 ((rngOne 0).dims))
        < costHead ([[(0 : ℚ)]].getD 0 [])
    ∧ (([[(0 : ℚ)]], [(1 : ℚ)/2], (1 : ℚ)/2) : List Member × Member × ℚ).1 = [[(0 : ℚ)]] := by
  refine ⟨rfl, of_decide_eq_true (by with_unfolding_all rfl), ?_⟩
  exact C2_worse_never_accepted costHead params2 (.fin 1) 0 rngOne 0 [[(0 : ℚ)]]
    [(97 : ℚ)] 99 ([[(0 : ℚ)]], [(1 : ℚ)/2], (1 : ℚ)/2)
    (of_decide_eq_true (by with_unfolding_all rfl))
    (of_decide_eq_true (by with_unfolding_all rfl))

/-- C10: with pool_size = 1 both halves of gen_pool have size int(1/2) = 0,
the returned population is empty and davg is the NumPy mean of an empty list
(NaN); jps then raises IndexError when `sorted([...])[0]` selects the initial
best member from the empty pool, instead of returning a pair. -/
theorem C10_pool_size_one (cost : Member → ℚ) (params : Params)
    (st : ℕ → ℕ → ℚ) (mr : ℕ → ℕ → DimRand) (rng : ℕ → ℕ → SlotRand) (fuel : ℕ)
    (h : params.pool_size = 1) :
    gen_pool cost params st mr = ([], .nan)
    ∧ jps cost params st mr rng fuel = .raised .indexError := by
  have hhalf : (params.pool_size / 2).toNat = 0 := by rw [h]; decide
  have hgp : gen_pool cost params st mr = ([], .nan) := by
    simp [gen_pool, hhalf, npMean]
  refine ⟨hgp, ?_⟩
  simp [jps, hgp, init_best, min_by_cost]

/-- C10 witness: the concrete configuration with pool_size = 1. -/
theorem C10_witness :
    gen_pool costHead params10 halfDraw mrHalf = ([], .nan)
    ∧ jps costHead params10 halfDraw mrHalf rngHalf 5 = .raised .indexError :=
  C10_pool_size_one costHead params10 halfDraw mrHalf rngHalf 5 (by decide)

/-- C4 counterexample: one completed generation over a population of 2 members
increases the evaluation counter by 1, not by pool_size = 2: the source
increments `evals` once after the for loop, not once per slot. -/
theorem C4_counterexample :
    (gen_step costHead params1 (.fin (1/4)) (rngHalf 0)
        ⟨[[1/2], [3/4]], [1/2], 1/2, 0⟩).map LoopState.evals = .ok 1
    ∧ ([[1/2], [3/4]] : List Member).length = 2
    ∧ (1 : ℕ) ≠ 0 + 2 :=
  of_decide_eq_true (by with_unfolding_all rfl)

/-- C4 amended: each completed generation visits every slot index of the pool
and increments the evaluation counter exactly once, so a generation over
pool_size members increases it by 1. -/
theorem C4_evals_once_per_generation (cost : Member → ℚ) (params : Params)
    (davg : NpFloat) (r : ℕ → SlotRand) (st st' : LoopState)
    (h : gen_step cost params davg r st = .ok st') :
    st'.evals = st.evals + 1 := by
  unfold gen_step at h
  split at h
  · exact absurd h (by simp)
  · exact (Except.ok.inj h) ▸ rfl

/-- C4 witness: the concrete generation of the counterexample, whose resulting
counter is the starting counter plus one. -/
theorem C4_witness :
    (⟨[[1/2], [3/4]], [1/2], 1/2, 1⟩ : LoopState).evals
      = (⟨[[1/2], [3/4]], [1/2], 1/2, 0⟩ : LoopState).evals + 1 :=
  C4_evals_once_per_generation costHead params1 (.fin (1/4)) (rngHalf 0)
    ⟨[[1/2], [3/4]], [1/2], 1/2, 0⟩ ⟨[[1/2], [3/4]], [1/2], 1/2, 1⟩
    (of_decide_eq_true (by with_unfolding_all rfl))

/-- C7 counterexample: the configuration params7 violates the bounds contract
(lo = 2 > 1 = hi), yet jps raises nothing: it builds the population, runs two
full generations and returns a result — no ConfigError is raised before
population work begins. -/
theorem C7_counterexample :
    (2 : ℚ) > 1
    ∧ params7.bounds = [(2, 1)]
    ∧ jps (fun _ => (7 : ℚ)) params7 halfDraw mrHalf rngHalf 3 = .result [3/2] 7 :=
  of_decide_eq_true (by with_unfolding_all rfl)

/-! Helper lemmas shared by several theorems. -/

/-- The first element of the stable sort belongs to the list and has minimal
cost among all entries. -/
theorem min_by_cost_spec :
    ∀ (l : List (Member × ℚ)) (p : Member × ℚ), min_by_cost l = some p →
      p ∈ l ∧ ∀ q ∈ l, p.2 ≤ q.2 := by
  intro l
  induction l with
  | nil => intro p h; simp [min_by_cost] at h
  | cons a rest ih =>
    intro p h
    rw [min_by_cost] at h
    cases hrest : min_by_cost rest with
    | none =>
      rw [hrest] at h
      have hp : a = p := Option.some.inj h
      subst hp
      have hre : rest = [] := by
        cases rest with
        | nil => rfl
        | cons b bs =>
          rw [min_by_cost] at hrest
          cases hbs : min_by_cost bs with
          | none => rw [hbs] at hrest; simp at hrest
          | some v => rw [hbs] at hrest; simp at hrest
      subst hre
      refine ⟨List.mem_singleton_self a, ?_⟩
      intro q hq
      rw [List.mem_singleton] at hq
      subst hq
      exact le_refl _
    | some q =>
      rw [hrest] at h
      obtain ⟨hqmem, hqle⟩ := ih q hrest
      have hp := Option.some.inj h
      by_cases hlt : q.2 < a.2
      · rw [if_pos hlt] at hp
        subst hp
        refine ⟨List.mem_cons_of_mem _ hqmem, ?_⟩
        intro x hx
        rcases List.mem_cons.mp hx with hx | hx
        · subst hx; exact le_of_lt hlt
        · exact hqle x hx
      · rw [if_neg hlt] at hp
        subst hp
        refine ⟨List.mem_cons_self _ _, ?_⟩
        intro x hx
        rcases List.mem_cons.mp hx with hx | hx
        · subst hx; exact le_refl _
        · exact le_trans (le_of_not_lt hlt) (hqle x hx)

/-- The initial best solution is a member of the pool, its recorded cost is
the cost of that member, and no pool member costs less. -/
theorem init_best_spec (pool : List Member) (cost : Member → ℚ) (b : Member) (c : ℚ)
    (h : init_best pool cost = some (b, c)) :
    b ∈ pool ∧ c = cost b ∧ ∀ m ∈ pool, c ≤ cost m := by
  obtain ⟨hmem, hle⟩ := min_by_cost_spec _ _ h
  rw [List.mem_map] at hmem
  obtain ⟨a, ha, hab⟩ := hmem
  have h1 : a = b := congrArg Prod.fst hab
  have h2 : cost a = c := congrArg Prod.snd hab
  subst h1
  refine ⟨ha, h2.symm, ?_⟩
  intro m hm
  exact hle (m, cost m) (List.mem_map_of_mem _ hm)

/-- Across one pass over any slots, the tracked best cost never increases, and
the best member changes only together with a strict decrease of the best
cost. -/
theorem slots_loop_best_mono (cost : Member → ℚ) (params : Params) (davg : NpFloat)
    (evals : ℕ) (r : ℕ → SlotRand) :
    ∀ (idxs : List ℕ) (pool : List Member) (best : Member) (best_cost : ℚ)
      (out : List Member × Member × ℚ),
      slots_loop cost params davg evals r idxs pool best best_cost = .ok out →
      out.2.2 ≤ best_cost ∧ (out.2.2 < best_cost ∨ (out.2.1 = best ∧ out.2.2 = best_cost)) := by
  intro idxs
  induction idxs with
  | nil =>
    intro pool best bc out h
    rw [slots_loop] at h
    have h2 := Except.ok.inj h
    subst h2
    exact ⟨le_refl _, Or.inr ⟨rfl, rfl⟩⟩
  | cons i rest ih =>
    intro pool best bc out h
    by_cases hb : cost (mutate (pool.getD i []) params ((r i).dims)) < bc
    · by_cases ht : cost (mutate (pool.getD i []) params ((r i).dims)) < params.cost_target
      · simp only [slots_loop, if_pos hb, if_pos (And.intro hb ht)] at h
        have h2 := Except.ok.inj h
        subst h2
        exact ⟨le_of_lt hb, Or.inl hb⟩
      · cases hacc : slot_accept cost params davg evals (r i) i pool
            (mutate (pool.getD i []) params ((r i).dims))
            (cost (mutate (pool.getD i []) params ((r i).dims))) with
        | error e =>
          simp only [slots_loop, if_pos hb, if_neg (fun hc : _ ∧ _ => ht hc.2), hacc] at h
          exact Except.noConfusion h
        | ok pool' =>
          simp only [slots_loop, if_pos hb, if_neg (fun hc : _ ∧ _ => ht hc.2), hacc] at h
          have h1 := (ih pool' _ _ out h).1
          exact ⟨le_trans h1 (le_of_lt hb), Or.inl (lt_of_le_of_lt h1 hb)⟩
    · cases hacc : slot_accept cost params davg evals (r i) i pool
          (mutate (pool.getD i []) params ((r i).dims))
          (cost (mutate (pool.getD i []) params ((r i).dims))) with
      | error e =>
        simp only [slots_loop, if_neg hb, if_neg (fun hc : _ ∧ _ => hb hc.1), hacc] at h
        exact Except.noConfusion h
      | ok pool' =>
        simp only [slots_loop, if_neg hb, if_neg (fun hc : _ ∧ _ => hb hc.1), hacc] at h
        exact ih pool' _ _ out h

/-- With a nonzero finite calibration value and alpha in (0, 1], the
acceptance schedule always yields a finite probability inside [0, 1]. -/
theorem prob_fin_of_ne (params : Params) (h0 : 0 < params.alpha) (h1 : params.alpha ≤ 1)
    (d q : ℚ) (hq : q ≠ 0) (evals : ℕ) :
    ∃ p, prob d (.fin q) evals params = .fin p ∧ 0 ≤ p ∧ p ≤ 1 := by
  have ha0 : (0 : ℚ) ≤ params.alpha ^ evals := le_of_lt (pow_pos h0 evals)
  have ha1 : params.alpha ^ evals ≤ 1 := pow_le_one₀ (le_of_lt h0) h1
  unfold prob
  split
  · exact ⟨params.alpha ^ evals, rfl, ha0, ha1⟩
  · have hden : (0 : ℚ) < 1 + (d / q) ^ 2 := by positivity
    refine ⟨params.alpha ^ evals / (1 + (d / q) ^ 2), ?_, ?_, ?_⟩
    · simp only [fdivF, npSq, npOnePlus, if_neg hq, if_neg (ne_of_gt hden)]
    · positivity
    · rw [div_le_one hden]
      nlinarith [sq_nonneg (d / q)]

/-- np.random.choice succeeds on a finite probability inside [0, 1]. -/
theorem np_random_choice_fin_ok (p : ℚ) (v : ℤ) (h0 : 0 ≤ p) (h1 : p ≤ 1) :
    np_random_choice (.fin p) v = .ok v := by
  simp [np_random_choice, h0, h1]

/-- When the replacement decision succeeds, the pool is either unchanged or
has exactly the candidate written into the processed slot. -/
theorem slot_accept_out (cost : Member → ℚ) (params : Params) (davg : NpFloat)
    (evals : ℕ) (r : SlotRand) (i : ℕ) (pool : List Member) (next : Member)
    (next_cost : ℚ) (pool' : List Member)
    (h : slot_accept cost params davg evals r i pool next next_cost = .ok pool') :
    pool' = pool ∨ pool' = pool.set i next := by
  simp only [slot_accept] at h
  split at h
  · exact Or.inr (Except.ok.inj h).symm
  · cases hch : np_random_choice (prob (next_cost - cost (pool.getD i [])) davg evals params)
        r.acc with
    | error e => rw [hch] at h; simp at h
    | ok v =>
      rw [hch] at h
      have hpy : pyIs (.npInt64 v) (.pyInt 1) = false := rfl
      simp only [hpy, Bool.false_eq_true, if_false] at h
      exact Or.inl (Except.ok.inj h).symm

/-- With a nonzero finite calibration value and alpha in (0, 1], the
replacement decision never raises. -/
theorem slot_accept_ok (cost : Member → ℚ) (params : Params) (q : ℚ) (hq : q ≠ 0)
    (h0 : 0 < params.alpha) (h1 : params.alpha ≤ 1) (evals : ℕ) (r : SlotRand) (i : ℕ)
    (pool : List Member) (next : Member) (next_cost : ℚ) :
    ∃ pool', slot_accept cost params (.fin q) evals r i pool next next_cost = .ok pool' := by
  simp only [slot_accept]
  split
  · exact ⟨pool.set i next, rfl⟩
  · obtain ⟨p, hp, hp0, hp1⟩ :=
      prob_fin_of_ne params h0 h1 (next_cost - cost (pool.getD i [])) q hq evals
    rw [hp, np_random_choice_fin_ok p r.acc hp0 hp1]
    have hpy : pyIs (.npInt64 r.acc) (.pyInt 1) = false := rfl
    simp only [hpy, Bool.false_eq_true, if_false]
    exact ⟨pool, rfl⟩

/-- With a nonzero finite calibration value and alpha in (0, 1], a pass over
any slots never raises. -/
theorem slots_loop_ok (cost : Member → ℚ) (params : Params) (q : ℚ) (hq : q ≠ 0)
    (h0 : 0 < params.alpha) (h1 : params.alpha ≤ 1) (evals : ℕ) (r : ℕ → SlotRand) :
    ∀ (idxs : List ℕ) (pool : List Member) (best : Member) (best_cost : ℚ),
      ∃ out, slots_loop cost params (.fin q) evals r idxs pool best best_cost = .ok out := by
  intro idxs
  induction idxs with
  | nil => intro pool best bc; exact ⟨(pool, best, bc), rfl⟩
  | cons i rest ih =>
    intro pool best bc
    by_cases hb : cost (mutate (pool.getD i []) params ((r i).dims)) < bc
    · by_cases ht : cost (mutate (pool.getD i []) params ((r i).dims)) < params.cost_target
      · refine ⟨(pool, mutate (pool.getD i []) params ((r i).dims),
          cost (mutate (pool.getD i []) params ((r i).dims))), ?_⟩
        simp only [slots_loop, if_pos hb, if_pos (And.intro hb ht)]
      · obtain ⟨pool', hacc⟩ := slot_accept_ok cost params q hq h0 h1 evals (r i) i pool
          (mutate (pool.getD i []) params ((r i).dims))
          (cost (mutate (pool.getD i []) params ((r i).dims)))
        obtain ⟨out, hout⟩ := ih pool' (mutate (pool.getD i []) params ((r i).dims))
          (cost (mutate (pool.getD i []) params ((r i).dims)))
        refine ⟨out, ?_⟩
        simp only [slots_loop, if_pos hb, if_neg (fun hc : _ ∧ _ => ht hc.2), hacc, hout]
    · obtain ⟨pool', hacc⟩ := slot_accept_ok cost params q hq h0 h1 evals (r i) i pool
        (mutate (pool.getD i []) params ((r i).dims))
        (cost (mutate (pool.getD i []) params ((r i).dims)))
      obtain ⟨out, hout⟩ := ih pool' best bc
      refine ⟨out, ?_⟩
      simp only [slots_loop, if_neg hb, if_neg (fun hc : _ ∧ _ => hb hc.1), hacc, hout]

/-- Whenever the while loop returns a result, its cost is at most the best
cost of the state it started from. -/
theorem jps_loop_result_le (cost : Member → ℚ) (params : Params) (davg : NpFloat)
    (rng : ℕ → ℕ → SlotRand) :
    ∀ (fuel : ℕ) (st : LoopState) (b : Member) (c : ℚ),
      jps_loop cost params davg rng fuel st = .result b c → c ≤ st.best_cost := by
  intro fuel
  induction fuel with
  | zero => intro st b c h; simp [jps_loop] at h
  | succ n ih =>
    intro st b c h
    rw [jps_loop] at h
    split at h
    · cases hgs : gen_step cost params davg (rng st.evals) st with
      | error e => rw [hgs] at h; simp at h
      | ok st' =>
        rw [hgs] at h
        have hc := ih st' b c h
        have hmono : st'.best_cost ≤ st.best_cost := by
          unfold gen_step at hgs
          cases hsl : slots_loop cost params davg st.evals (rng st.evals)
              (List.range st.pool.length) st.pool st.best st.best_cost with
          | error e => rw [hsl] at hgs; simp at hgs
          | ok out =>
            obtain ⟨pool', best', bc'⟩ := out
            rw [hsl] at hgs
            have h2 := Except.ok.inj hgs
            have hm := (slots_loop_best_mono cost params davg st.evals (rng st.evals)
              _ _ _ _ _ hsl).1
            rw [← h2]
            exact hm
        exact le_trans hc hmono
    · have h2 := RunOut.result.inj h
      rw [← h2.2]

/-- If the best cost of the state is strictly below the cost target, the while
guard `evals <= max_evals or best_cost < cost_target` stays true and, with a
nonzero finite calibration value and alpha in (0, 1], the loop consumes all
its fuel without ever returning. -/
theorem jps_loop_stays_running (cost : Member → ℚ) (params : Params) (q : ℚ)
    (hq : q ≠ 0) (h0 : 0 < params.alpha) (h1 : params.alpha ≤ 1)
    (rng : ℕ → ℕ → SlotRand) :
    ∀ (fuel : ℕ) (st : LoopState), st.best_cost < params.cost_target →
      jps_loop cost params (.fin q) rng fuel st = .running := by
  intro fuel
  induction fuel with
  | zero => intro st hst; rfl
  | succ n ih =>
    intro st hst
    rw [jps_loop, if_pos (Or.inr hst)]
    obtain ⟨out, hout⟩ := slots_loop_ok cost params q hq h0 h1 st.evals (rng st.evals)
      (List.range st.pool.length) st.pool st.best st.best_cost
    obtain ⟨pool', best', bc'⟩ := out
    have hmono := (slots_loop_best_mono cost params (.fin q) st.evals (rng st.evals)
      _ _ _ _ _ hout).1
    have hgs : gen_step cost params (.fin q) (rng st.evals) st
        = .ok ⟨pool', best', bc', st.evals + 1⟩ := by
      unfold gen_step
      rw [hout]
    rw [hgs]
    exact ih ⟨pool', best', bc', st.evals + 1⟩ (lt_of_le_of_lt hmono hst)

/-- C9: the best solution is initialized at a minimum-cost member of the
initial population; one pass over the slots never increases the tracked best
cost and changes the best member only together with a strict cost decrease;
and any result the while loop returns costs at most the best cost of the
state it started from — the best-known cost is monotonically non-increasing
over the whole run. -/
theorem C9_best_monotone (cost : Member → ℚ) (params : Params) (davg : NpFloat)
    (evals : ℕ) (r : ℕ → SlotRand) (rng : ℕ → ℕ → SlotRand) :
    (∀ (pool : List Member) (b : Member) (c : ℚ), init_best pool cost = some (b, c) →
        b ∈ pool ∧ c = cost b ∧ ∀ m ∈ pool, c ≤ cost m)
    ∧ (∀ (idxs : List ℕ) (pool : List Member) (best : Member) (best_cost : ℚ)
          (out : List Member × Member × ℚ),
        slots_loop cost params davg evals r idxs pool best best_cost = .ok out →
        out.2.2 ≤ best_cost ∧ (out.2.2 < best_cost ∨ (out.2.1 = best ∧ out.2.2 = best_cost)))
    ∧ (∀ (fuel : ℕ) (st : LoopState) (b : Member) (c : ℚ),
        jps_loop cost params davg rng fuel st = .result b c → c ≤ st.best_cost) :=
  ⟨fun pool b c h => init_best_spec pool cost b c h,
   fun idxs pool best bc out h =>
     slots_loop_best_mono cost params davg evals r idxs pool best bc out h,
   fun fuel st b c h => jps_loop_result_le cost params davg rng fuel st b c h⟩

/-- C9 witness: on the concrete two-member pool the initial best is its
minimum-cost member. -/
theorem C9_witness :
    [(1 : ℚ)/2] ∈ [[(1 : ℚ)/2], [(3 : ℚ)/4]]
    ∧ (1 : ℚ)/2 = costHead [(1 : ℚ)/2]
    ∧ ∀ m ∈ [[(1 : ℚ)/2], [(3 : ℚ)/4]], (1 : ℚ)/2 ≤ costHead m :=
  (C9_best_monotone costHead params1 (.fin (1/4)) 0 rngOne rngHalf).1
    [[(1 : ℚ)/2], [(3 : ℚ)/4]] [(1 : ℚ)/2] ((1 : ℚ)/2)
    (of_decide_eq_true (by with_unfolding_all rfl))

/-- C1: the claim says that for max_evals > 0 the run terminates exactly when
evals reaches max_evals or the best cost reaches cost_target, and then returns
the best pair.  On the code the while guard is
`evals <= params[max_evals] or best_cost < params[cost_target]`, so once the
best cost sits below the target the guard is permanently true: with
max_evals = 3 > 0, cost_target = 5, and a cost function bounded by 1, the
loop never exits — whatever fuel it is given it is still running, and jps
never returns a result. -/
theorem C1_while_or_never_returns :
    0 < params1.max_evals
    ∧ ∀ fuel, jps costHead params1 halfDraw mrHalf rngHalf fuel = .running := by
  refine ⟨of_decide_eq_true (by with_unfolding_all rfl), ?_⟩
  intro fuel
  have hj : jps costHead params1 halfDraw mrHalf rngHalf fuel
      = jps_loop costHead params1 (.fin (1/4)) rngHalf fuel ⟨[[1/2], [3/4]], [1/2], 1/2, 0⟩ := by
    with_unfolding_all rfl
  rw [hj]
  refine jps_loop_stays_running costHead params1 (1/4) (by norm_num) ?_ ?_ rngHalf fuel _ ?_
  · norm_num [params1]
  · norm_num [params1]
  · norm_num [params1]

/-- C7 amended: the optimizer performs no configuration validation: nothing
like a ConfigError exists in the code and nothing is raised before population
work; with the invalid bounds pair (2, 1), where lo > hi, the population is
built, the generation loop runs, and once the guard fails the run returns a
result normally, with any surplus fuel. -/
theorem C7_no_validation (fuel : ℕ) :
    jps (fun _ => (7 : ℚ)) params7 halfDraw mrHalf rngHalf (fuel + 3) = .result [3/2] 7 := by
  with_unfolding_all rfl

/-- The clip logic of mutate_dim, called with the lower bound in the `hi`
parameter and the upper bound in the `lo` parameter, keeps an in-bounds value
in bounds for any velocity: the first clip branch lands in [value, upper],
the second in [lower, value], and the remaining branch is reachable only when
lower = upper. -/
theorem clip_mem (dim b1 b2 w u2 : ℚ) (hlo : b1 ≤ dim) (hhi : dim ≤ b2)
    (hu0 : 0 ≤ u2) (hu1 : u2 ≤ 1) :
    (if dim + w < b2 then (if dim = b2 then b2 else b2 + u2 * (dim - b2))
     else if dim + w > b1 then (if dim = b1 then b1 else b1 - u2 * (b1 - dim))
     else dim + w) ∈ Set.Icc b1 b2 := by
  have hb : b1 ≤ b2 := le_trans hlo hhi
  split_ifs with h1 h2 h3 h4
  · exact Set.mem_Icc.mpr ⟨hb, le_refl _⟩
  · refine Set.mem_Icc.mpr ⟨?_, ?_⟩
    · nlinarith [mul_nonneg (by linarith : (0 : ℚ) ≤ 1 - u2)
        (by linarith : (0 : ℚ) ≤ b2 - dim)]
    · nlinarith [mul_nonneg hu0 (by linarith : (0 : ℚ) ≤ b2 - dim)]
  · exact Set.mem_Icc.mpr ⟨le_refl _, hb⟩
  · refine Set.mem_Icc.mpr ⟨?_, ?_⟩
    · nlinarith [mul_nonneg hu0 (by linarith : (0 : ℚ) ≤ dim - b1)]
    · nlinarith [mul_nonneg (by linarith : (0 : ℚ) ≤ 1 - u2)
        (by linarith : (0 : ℚ) ≤ dim - b1)]
  · refine Set.mem_Icc.mpr ⟨by linarith, by linarith⟩

/-- Despite the swapped hi/lo arguments at the call site in `mutate`, one
mutated coordinate stays inside its inclusive bounds interval. -/
theorem mutate_dim_mem (dim b1 b2 : ℚ) (params : Params) (r : DimRand)
    (hlo : b1 ≤ dim) (hhi : dim ≤ b2) (hu0 : 0 ≤ r.u2) (hu1 : r.u2 ≤ 1) :
    mutate_dim dim b1 b2 params r ∈ Set.Icc b1 b2 :=
  clip_mem dim b1 b2
    (if pyIs (.pyInt r.s) (.pyInt 0) then params.x * (b1 - b2) * r.u1
     else -(params.x * (b1 - b2) * r.u1))
    r.u2 hlo hhi hu0 hu1

/-- Mutating an in-bounds member yields an in-bounds member of the same
length, provided the resample draws lie in [0, 1]. -/
theorem mutate_valid (params : Params) (member : Member) (r : ℕ → DimRand)
    (hm : validMember params member) (hr : ∀ i, 0 ≤ (r i).u2 ∧ (r i).u2 ≤ 1) :
    validMember params (mutate member params r) := by
  obtain ⟨hlen, hco⟩ := hm
  have hlen2 : (mutate member params r).length = member.length := by
    simp [mutate]
  refine ⟨by rw [hlen2, hlen], ?_⟩
  intro i hi
  rw [hlen2] at hi
  have hget : (mutate member params r).getD i 0
      = mutate_dim (member.getD i 0) (params.bounds.getD i (0, 0)).1
          (params.bounds.getD i (0, 0)).2 params (r i) := by
    rw [List.getD_eq_getElem _ _ (by rw [hlen2]; exact hi)]
    simp [mutate]
  rw [hget]
  have hc := hco i hi
  exact Set.mem_Icc.mp (mutate_dim_mem (member.getD i 0) (params.bounds.getD i (0, 0)).1
    (params.bounds.getD i (0, 0)).2 params (r i) hc.1 hc.2 (hr i).1 (hr i).2)

/-- A seed member generated by `u(lo, hi)` draws is in bounds when the bounds
are ordered and the underlying draws lie in [0, 1]. -/
theorem gen_member_valid (params : Params) (t : ℕ → ℚ)
    (hb : ∀ p ∈ params.bounds, p.1 ≤ p.2) (ht : ∀ i, 0 ≤ t i ∧ t i ≤ 1) :
    validMember params (gen_member params t) := by
  have hlen : (gen_member params t).length = params.bounds.length := by
    simp [gen_member]
  refine ⟨hlen, ?_⟩
  intro i hi
  have hib : i < params.bounds.length := by rw [← hlen]; exact hi
  have hget : (gen_member params t).getD i 0
      = uniform (params.bounds.getD i (0, 0)).1 (params.bounds.getD i (0, 0)).2 (t i) := by
    rw [List.getD_eq_getElem _ _ hi]
    simp [gen_member]
  rw [hget]
  have hpair : (params.bounds.getD i (0, 0)).1 ≤ (params.bounds.getD i (0, 0)).2 := by
    refine hb _ ?_
    rw [List.getD_eq_getElem _ _ hib]
    exact List.getElem_mem hib
  unfold uniform
  constructor
  · nlinarith [mul_nonneg (sub_nonneg.mpr hpair) (ht i).1]
  · nlinarith [mul_nonneg (sub_nonneg.mpr hpair) (sub_nonneg.mpr (ht i).2)]

/-- Every member of the bootstrap population — the uniform seed half and the
mutant half — is in bounds. -/
theorem gen_pool_valid (cost : Member → ℚ) (params : Params) (st : ℕ → ℕ → ℚ)
    (mr : ℕ → ℕ → DimRand) (hb : ∀ p ∈ params.bounds, p.1 ≤ p.2)
    (hst : ∀ j i, 0 ≤ st j i ∧ st j i ≤ 1)
    (hmr : ∀ j i, 0 ≤ (mr j i).u2 ∧ (mr j i).u2 ≤ 1) :
    ∀ m ∈ (gen_pool cost params st mr).1, validMember params m := by
  intro m hm
  simp only [gen_pool, List.mem_append, List.mem_map, List.mem_range] at hm
  rcases hm with ⟨j, _, rfl⟩ | ⟨j, _, rfl⟩
  · exact gen_member_valid params (st j) hb (hst j)
  · exact mutate_valid params _ (mr j) (gen_member_valid params (st j) hb (hst j)) (hmr j)

/-- Slot replacement preserves pool-wide bounds validity when the written
member is valid. -/
theorem valid_set (params : Params) (pool : List Member) (i : ℕ) (a : Member)
    (hpool : ∀ m ∈ pool, validMember params m) (ha : validMember params a) :
    ∀ m ∈ pool.set i a, validMember params m := by
  intro m hm
  rcases List.mem_or_eq_of_mem_set hm with h | h
  · exact hpool m h
  · subst h
    exact ha

/-- One pass over any slots keeps every pool member in bounds: replacements
only ever write mutants of current pool members, and mutation preserves
bounds. -/
theorem slots_loop_valid (cost : Member → ℚ) (params : Params) (davg : NpFloat)
    (evals : ℕ) (r : ℕ → SlotRand)
    (hr : ∀ s j, 0 ≤ ((r s).dims j).u2 ∧ ((r s).dims j).u2 ≤ 1) :
    ∀ (idxs : List ℕ) (pool : List Member) (best : Member) (best_cost : ℚ)
      (out : List Member × Member × ℚ),
      slots_loop cost params davg evals r idxs pool best best_cost = .ok out →
      (∀ m ∈ pool, validMember params m) → ∀ m ∈ out.1, validMember params m := by
  intro idxs
  induction idxs with
  | nil =>
    intro pool best bc out h hpool
    rw [slots_loop] at h
    have h2 := Except.ok.inj h
    subst h2
    exact hpool
  | cons i rest ih =>
    intro pool best bc out h hpool
    have hpool' : ∀ (pool' : List Member),
        slot_accept cost params davg evals (r i) i pool
            (mutate (pool.getD i []) params ((r i).dims))
            (cost (mutate (pool.getD i []) params ((r i).dims))) = .ok pool' →
        ∀ m ∈ pool', validMember params m := by
      intro pool' hacc
      rcases slot_accept_out cost params davg evals (r i) i pool _ _ pool' hacc with rfl | rfl
      · exact hpool
      · by_cases hilt : i < pool.length
        · refine valid_set params pool i _ hpool ?_
          refine mutate_valid params _ _ ?_ (hr i)
          refine hpool _ ?_
          rw [List.getD_eq_getElem _ _ hilt]
          exact List.getElem_mem hilt
        · rw [List.set_eq_of_length_le (le_of_not_lt hilt)]
          exact hpool
    by_cases hbc : cost (mutate (pool.getD i []) params ((r i).dims)) < bc
    · by_cases ht : cost (mutate (pool.getD i []) params ((r i).dims)) < params.cost_target
      · simp only [slots_loop, if_pos hbc, if_pos (And.intro hbc ht)] at h
        have h2 := Except.ok.inj h
        subst h2
        exact hpool
      · cases hacc : slot_accept cost params davg evals (r i) i pool
            (mutate (pool.getD i []) params ((r i).dims))
            (cost (mutate (pool.getD i []) params ((r i).dims))) with
        | error e =>
          simp only [slots_loop, if_pos hbc, if_neg (fun hc : _ ∧ _ => ht hc.2), hacc] at h
          exact Except.noConfusion h
        | ok pool' =>
          simp only [slots_loop, if_pos hbc, if_neg (fun hc : _ ∧ _ => ht hc.2), hacc] at h
          exact ih pool' _ _ out h (hpool' pool' hacc)
    · cases hacc : slot_accept cost params davg evals (r i) i pool
          (mutate (pool.getD i []) params ((r i).dims))
          (cost (mutate (pool.getD i []) params ((r i).dims))) with
      | error e =>
        simp only [slots_loop, if_neg hbc, if_neg (fun hc : _ ∧ _ => hbc hc.1), hacc] at h
        exact Except.noConfusion h
      | ok pool' =>
        simp only [slots_loop, if_neg hbc, if_neg (fun hc : _ ∧ _ => hbc hc.1), hacc] at h
        exact ih pool' _ _ out h (hpool' pool' hacc)

/-- C5: for ordered bounds and unit-interval draws, mutation maps in-bounds
members to in-bounds members, every member of the population built by
gen_pool (uniform seeds and their bootstrap mutants) is in bounds, and a pass
of the generation loop maps an everywhere-in-bounds pool to an
everywhere-in-bounds pool — so by induction every member ever present in the
population has all coordinates inside the inclusive bounds intervals. -/
theorem C5_bounds_invariant (cost : Member → ℚ) (params : Params)
    (hb : ∀ p ∈ params.bounds, p.1 ≤ p.2) :
    (∀ (member : Member) (r : ℕ → DimRand), validMember params member →
        (∀ i, 0 ≤ (r i).u2 ∧ (r i).u2 ≤ 1) → validMember params (mutate member params r))
    ∧ (∀ (st : ℕ → ℕ → ℚ) (mr : ℕ → ℕ → DimRand),
        (∀ j i, 0 ≤ st j i ∧ st j i ≤ 1) →
        (∀ j i, 0 ≤ (mr j i).u2 ∧ (mr j i).u2 ≤ 1) →
        ∀ m ∈ (gen_pool cost params st mr).1, validMember params m)
    ∧ (∀ (davg : NpFloat) (evals : ℕ) (r : ℕ → SlotRand),
        (∀ s j, 0 ≤ ((r s).dims j).u2 ∧ ((r s).dims j).u2 ≤ 1) →
        ∀ (idxs : List ℕ) (pool : List Member) (best : Member) (best_cost : ℚ)
          (out : List Member × Member × ℚ),
          slots_loop cost params davg evals r idxs pool best best_cost = .ok out →
          (∀ m ∈ pool, validMember params m) → ∀ m ∈ out.1, validMember params m) :=
  ⟨fun member r hm hr => mutate_valid params member r hm hr,
   fun st mr hst hmr => gen_pool_valid cost params st mr hb hst hmr,
   fun davg evals r hr idxs pool best bc out h hpool =>
     slots_loop_valid cost params davg evals r hr idxs pool best bc out h hpool⟩

/-- C5 witness: mutating the concrete in-bounds member [1/2] under the
concrete bounds [(0, 1)] with draws of one half yields an in-bounds member. -/
theorem C5_witness :
    validMember params1 (mutate [(1 : ℚ)/2] params1 (fun _ => halfDim)) :=
  (C5_bounds_invariant costHead params1
      (by intro p hp; simp [params1] at hp; subst hp; norm_num)).1
    [(1 : ℚ)/2] (fun _ => halfDim)
    (of_decide_eq_true (by with_unfolding_all rfl))
    (fun _ => ⟨by norm_num [halfDim], by norm_num [halfDim]⟩)

/-- C7 witness: the amended no-validation theorem applied with no surplus
fuel. -/
theorem C7_witness :
    jps (fun _ => (7 : ℚ)) params7 halfDraw mrHalf rngHalf (0 + 3) = .result [3/2] 7 :=
  C7_no_validation 0

end JPS
